import Mathlib

/-!
Verification of the CrypTen arithmetic secret-sharing core against its
natural-language specification.  The Python source is shallowly embedded:
ring tensors become flat lists of integers with explicit wrapping modulo
2^64, the approximation library becomes functions over the rationals (the
ideal plaintext semantics of the shared-tensor algebra), and the global
approximation configuration becomes an explicit record threaded through
every call.
-/

namespace Crypten

/-- Signed 64-bit wrap of an integer: the unique representative of
`v` modulo `2^64` lying in `[-2^63, 2^63)`.  This is the semantics of
every overflowing `torch.int64` arithmetic operation on shares. -/
def wrap64 (v : ℤ) : ℤ := (v + 2 ^ 63) % 2 ^ 64 - 2 ^ 63

/-- Size of the ring, from the default argument `ring_size=(2 ** 64)` of
`generate_random_ring_element` in `crypten/common/rng.py`. -/
def ring_size : ℕ := 2 ^ 64

/-- Lower bound passed to `torch.randint` by `generate_random_ring_element`:
the Python expression `-(ring_size // 2)`. -/
def randint_low : ℤ := -((ring_size / 2 : ℕ) : ℤ)

/-- Upper bound passed to `torch.randint` by `generate_random_ring_element`:
the Python expression `(ring_size - 1) // 2`. -/
def randint_high : ℤ := (((ring_size - 1) / 2 : ℕ) : ℤ)

/-- Support of one draw of `generate_random_ring_element`
(`crypten/common/rng.py`, lines 12-27).  `torch.randint(low, high, ...)`
samples uniformly from the half-open interval `[low, high)`: the upper
bound is exclusive per the torch documentation. -/
def inRingElementRange (v : ℤ) : Prop := randint_low ≤ v ∧ v < randint_high

instance (v : ℤ) : Decidable (inRingElementRange v) := by
  unfold inRingElementRange; infer_instance

/-- Embedding of `ArithmeticSharedTensor.PRZS`
(`crypten/mpc/primitives/arithmetic.py`, lines 151-168): the share of one
party is the elementwise difference of its draw from `generator(0)` and
its draw from `generator(1)`, with int64 wrapping. -/
def PRZS (current_share next_share : List ℤ) : List ℤ :=
  List.zipWith (fun a b => wrap64 (a - b)) current_share next_share

/-- Elementwise int64 addition of two shares of equal shape, as in the
private branch of `_arithmetic_function` for `add`. -/
def addShares (a b : ℤ) : ℤ := wrap64 (a + b)

/-- Elementwise int64 subtraction of two shares, as in the private branch
of `_arithmetic_function` for `sub` (used by `self -= ...` in `div_`). -/
def subShares (a b : ℤ) : ℤ := wrap64 (a - b)

/-- Multiplication of a share by a public integer, the `isinstance(y, int)`
fast path of `ArithmeticSharedTensor.mul` (share is multiplied directly,
with int64 wrapping). -/
def mulSharePublic (a k : ℤ) : ℤ := wrap64 (a * k)

/-- Round-toward-zero division of a share by a public integer:
`self.share.div_(y, rounding_mode="trunc")` in `div_`, with int64 wrap. -/
def truncDivShare (a y : ℤ) : ℤ := wrap64 (Int.tdiv a y)

/-- Embedding of the public-integer path of `ArithmeticSharedTensor.div_`
(`crypten/mpc/primitives/arithmetic.py`, lines 402-439) acting on one
element of the share of one party.  `worldSize` is
`comm.get().get_world_size()` and `wrapShare` is the element this party
holds of the shared wrap count
`wraps = self.wraps()` (the Beaver oracle output), which the source draws
before truncating.  For more than two parties the source executes
`self -= wraps * 4 * (int(2 ** 62) // y)` after the truncation, where `//`
is Python floor division. -/
def div_public_int (worldSize : ℕ) (wrapShare : ℤ) (share : ℤ) (y : ℤ) : ℤ :=
  if 2 < worldSize then
    subShares (truncDivShare share y)
      (mulSharePublic (mulSharePublic wrapShare 4) (Int.fdiv (2 ^ 62) y))
  else
    truncDivShare share y

/-- Fixed-point encoding.  Modelled from the spec: `FixedPointEncoder.encode`
(the encoder lives in `crypten/encoder.py`, which is not part of the three
source files) rounds `x * scale` to the nearest integer. -/
def encode (scale : ℕ) (y : ℚ) : ℤ := round (y * (scale : ℚ))

/-- One-dimensional torch broadcast of a tensor to a target length `L`:
a tensor already of length `L` is unchanged, a length-one tensor is
repeated `L` times.  This realizes `torch.broadcast_tensors(share, y)[0]`
for the flat tensors used here. -/
def broadcastTo (a : List ℤ) (L : ℕ) : List ℤ :=
  if a.length = L then a else List.replicate L (a.headD 0)

/-- Embedding of the public additive branch of
`ArithmeticSharedTensor._arithmetic_function`
(`crypten/mpc/primitives/arithmetic.py`, lines 321-328) for `op` in
`add`/`sub` with a public operand `y`: the operand is encoded, rank 0
applies it to its share, and every other rank only broadcasts its share
to the result shape. -/
def arithmeticFunctionPublicAdditive (isSub : Bool) (rank scale : ℕ)
    (share : List ℤ) (y : List ℚ) : List ℤ :=
  let yEnc := y.map (encode scale)
  let L := max share.length yEnc.length
  if rank = 0 then
    List.zipWith (fun a b => wrap64 (if isSub then a - b else a + b))
      (broadcastTo share L) (broadcastTo yEnc L)
  else
    broadcastTo share L

/-- All-reduce (sum) of the shares of every party, as performed by
`reveal` via `comm.get().all_reduce`: a left fold of elementwise int64
additions starting from the first share. -/
def revealSum : List (List ℤ) → List ℤ
  | [] => []
  | s :: rest => rest.foldl (fun acc t => List.zipWith addShares acc t) s

/-- Fixed-point decoding.  Modelled from the spec: `FixedPointEncoder.decode`
(in `crypten/encoder.py`, not among the source files) divides the ring
value by the scale as signed reals. -/
def decode (scale : ℕ) (v : ℤ) : ℚ := (v : ℚ) / (scale : ℚ)

/-- Result of `get_plain_text` together with a record of which effects the
call performed: whether it ran the `reveal` collective and whether it
invoked the decoder. -/
structure GPTResult where
  value : List ℚ
  revealed : Bool
  decoded : Bool
  deriving DecidableEq

/-- Embedding of `ArithmeticSharedTensor.get_plain_text`
(`crypten/mpc/primitives/arithmetic.py`, lines 288-293) viewed over the
shares of all parties.  When the share has no elements the source returns
`torch.empty(self.share.size())` without revealing or decoding; otherwise
it returns `self.encoder.decode(self.reveal())`. -/
def getPlainText (shares : List (List ℤ)) (scale : ℕ) : GPTResult :=
  if (shares.headD []).length < 1 then
    ⟨[], false, false⟩
  else
    ⟨(revealSum shares).map (decode scale), true, true⟩

/-- Embedding of the `ApproxConfig` dataclass of
`crypten/common/approximations.py` (lines 35-68), with each field at its
declared type (`reciprocal_initial` and `sqrt_nr_initial` default to the
Python value `None`, modelled as `Option`; `sigmoid_tanh_terms` is kept as
an integer because the source tests its parity and sign). -/
structure ApproxConfig where
  exp_iterations : ℕ
  reciprocal_method : String
  reciprocal_nr_iters : ℕ
  reciprocal_log_iters : ℕ
  reciprocal_all_pos : Bool
  reciprocal_initial : Option ℚ
  sqrt_nr_iters : ℕ
  sqrt_nr_initial : Option ℚ
  sigmoid_tanh_method : String
  sigmoid_tanh_terms : ℤ
  log_iterations : ℕ
  log_exp_iterations : ℕ
  log_order : ℕ
  trig_iterations : ℕ
  erf_iterations : ℕ
  deriving DecidableEq

/-- Default values of every `ApproxConfig` field, from the dataclass field
initializers in `crypten/common/approximations.py`. -/
def defaultConfig : ApproxConfig where
  exp_iterations := 8
  reciprocal_method := "NR"
  reciprocal_nr_iters := 10
  reciprocal_log_iters := 1
  reciprocal_all_pos := false
  reciprocal_initial := none
  sqrt_nr_iters := 3
  sqrt_nr_initial := none
  sigmoid_tanh_method := "reciprocal"
  sigmoid_tanh_terms := 32
  log_iterations := 2
  log_exp_iterations := 8
  log_order := 8
  trig_iterations := 10
  erf_iterations := 8

/-- Modelled from the spec: the scoped override `ConfigManager` (built on
`ConfigBase` from `crypten/common/util.py`, which is not among the source
files) temporarily sets the configuration entry named by `key`.  Setting a
name that is not a declared field of the configuration leaves every
declared field unchanged, exactly as Python `setattr` on a dataclass
creates a fresh attribute without touching the declared ones.  Only the
natural-number-valued keys are needed by the embedded code. -/
def setKeyNat (c : ApproxConfig) (key : String) (v : ℕ) : ApproxConfig :=
  if key = "exp_iterations" then { c with exp_iterations := v }
  else if key = "reciprocal_nr_iters" then { c with reciprocal_nr_iters := v }
  else if key = "reciprocal_log_iters" then { c with reciprocal_log_iters := v }
  else if key = "log_iterations" then { c with log_iterations := v }
  else if key = "log_exp_iterations" then { c with log_exp_iterations := v }
  else if key = "log_order" then { c with log_order := v }
  else if key = "trig_iterations" then { c with trig_iterations := v }
  else if key = "erf_iterations" then { c with erf_iterations := v }
  else c

/-- The squaring loop `for _ in range(n): result = result.square()` of
`exp` in `crypten/common/approximations.py`, over the ideal plaintext
semantics of the shared-tensor algebra. -/
def squareIter : ℕ → ℚ → ℚ
  | 0, r => r
  | n + 1, r => squareIter n (r * r)

/-- Embedding of `exp` (`crypten/common/approximations.py`, lines 96-112):
`result = 1 + self.div(2 ** config.exp_iterations)` followed by
`config.exp_iterations` squarings. -/
def expA (cfg : ApproxConfig) (x : ℚ) : ℚ :=
  squareIter cfg.exp_iterations (1 + x / 2 ^ cfg.exp_iterations)

/-- Modelled from the spec: `MPCTensor.polynomial(coeffs)` (the method
lives outside the three source files) evaluates
`coeffs[0] * h + coeffs[1] * h^2 + ...` by the Horner rule, which is how
`log` consumes it (the spec writes the update as the sum of `h^j / j`). -/
def polynomial (coeffs : List ℚ) (h : ℚ) : ℚ :=
  h * coeffs.foldr (fun c acc => c + h * acc) 0

/-- The Householder loop of `log`: each round computes
`h = 1 - self * exp(-y)` and updates
`y -= h.polynomial([1 / (i + 1) for i in range(order)])`.  The
configuration `cfg2` in scope inside the loop is the one produced by
`ConfigManager("exp_iterations", exp_iterations)`. -/
def logIter (cfg2 : ApproxConfig) (order : ℕ) (x : ℚ) : ℕ → ℚ → ℚ
  | 0, y => y
  | n + 1, y =>
    logIter cfg2 order x n
      (y - polynomial ((List.range order).map (fun i => 1 / ((i : ℚ) + 1)))
        (1 - x * expA cfg2 (-y)))

/-- Main body of `log` (`crypten/common/approximations.py`, lines 115-164)
for `input_in_01=False`: the initial estimate
`y = x / 120 - 20 * exp(-(2 x + 1)) + 3` followed by
`config.log_iterations` Householder rounds run under
`ConfigManager("exp_iterations", config.log_exp_iterations)`. -/
def logMain (cfg : ApproxConfig) (x : ℚ) : ℚ :=
  logIter (setKeyNat cfg "exp_iterations" cfg.log_exp_iterations)
    cfg.log_order x cfg.log_iterations
    (x / 120 - expA cfg (-(x * 2 + 1)) * 20 + 3)

/-- Embedding of `log` including its `input_in_01` branch, which returns
`log(self.mul(100)) - 4.605170` (the recursive call runs with the default
`input_in_01=False`, hence `logMain`). -/
def logA (cfg : ApproxConfig) (input_in_01 : Bool) (x : ℚ) : ℚ :=
  if input_in_01 then logMain cfg (x * 100) - 4605170 / 1000000
  else logMain cfg x

/-- The Newton-Raphson loop of `reciprocal`:
`result += result - result.square().mul_(self)` run `n` times (the
`hasattr(result, "square")` test is true for a shared tensor). -/
def nrLoop (x : ℚ) : ℕ → ℚ → ℚ
  | 0, r => r
  | n + 1, r => nrLoop x n (r + (r - r * r * x))

/-- Method dispatch of `reciprocal`
(`crypten/common/approximations.py`, lines 204-228), reached once the
`reciprocal_all_pos` gate has been passed.  The `NR` branch starts from
`3 * (1 - 2 * self).exp() + 0.003` unless `config.reciprocal_initial` is
set; the `log` branch runs
`ConfigManager("log_iters", config.reciprocal_log_iters)` around
`exp(-log(self))`; any other method raises `ValueError`. -/
def reciprocalPos (cfg : ApproxConfig) (x : ℚ) : Except String ℚ :=
  if cfg.reciprocal_method = "NR" then
    let r0 : ℚ :=
      match cfg.reciprocal_initial with
      | none => 3 * expA cfg (1 - 2 * x) + 3 / 1000
      | some r => r
    .ok (nrLoop x cfg.reciprocal_nr_iters r0)
  else if cfg.reciprocal_method = "log" then
    let cfg2 := setKeyNat cfg "log_iters" cfg.reciprocal_log_iters
    .ok (expA cfg2 (-(logA cfg2 false x)))
  else
    .error "Invalid method given for reciprocal function"

/-- The `reciprocal_all_pos` gate of `reciprocal`: when the input sign is
unknown the source computes `sgn = self.sign(_scale=False)` through the
external comparison subsystem (here the parameter `signFn`), takes
`pos = sgn * self`, and returns `sgn * reciprocal(pos)` with
`reciprocal_all_pos` overridden to true for the inner call. -/
def reciprocalMain (signFn : ℚ → ℚ) (cfg : ApproxConfig) (x : ℚ) :
    Except String ℚ :=
  if cfg.reciprocal_all_pos then reciprocalPos cfg x
  else
    let sgn := signFn x
    (reciprocalPos { cfg with reciprocal_all_pos := true } (sgn * x)).map
      (fun r => sgn * r)

/-- Embedding of `reciprocal` including its `input_in_01` branch, which
computes `reciprocal(self.mul(64)).mul(64)` under a `reciprocal_all_pos`
override. -/
def reciprocalA (signFn : ℚ → ℚ) (cfg : ApproxConfig) (input_in_01 : Bool)
    (x : ℚ) : Except String ℚ :=
  if input_in_01 then
    (reciprocalMain signFn { cfg with reciprocal_all_pos := true }
        (x * 64)).map (fun r => r * 64)
  else
    reciprocalMain signFn cfg x

/-- The appending loop
`for k in range(2, terms // 2): polynomials.append(y * polynomials[k - 1]
- polynomials[k - 2])` of `_chebyshev_polynomials`, run `n` times on a
list that already holds the first two odd polynomials. -/
def chebLoop (y : ℚ) : ℕ → List ℚ → List ℚ
  | 0, ps => ps
  | n + 1, ps =>
    chebLoop y n
      (ps ++ [y * ps.getD (ps.length - 1) 0 - ps.getD (ps.length - 2) 0])

/-- Embedding of `_chebyshev_polynomials`
(`crypten/common/approximations.py`, lines 415-442): raises `ValueError`
when `terms` is odd or below 6, otherwise builds the odd Chebyshev
polynomials from `y = 4 * self.square() - 2`, `z = y - 1`, initial list
`[x, z * x]`, and `terms // 2 - 2` recurrence steps. -/
def chebyshevPolynomials (x : ℚ) (terms : ℤ) : Except String (List ℚ) :=
  if terms % 2 ≠ 0 ∨ terms < 6 then
    .error "Chebyshev terms must be even and at least 6"
  else
    let y := 4 * (x * x) - 2
    let z := y - 1
    .ok (chebLoop y ((terms.fdiv 2).toNat - 2) [x, z * x])

/-- Contraction of the stacked polynomial values with the public Chebyshev
coefficients, realizing `tanh_polys_flipped.matmul(coeffs)` for the flat
one-element tensors used here. -/
def dotLists (a b : List ℚ) : ℚ := (List.zipWith (fun p q => p * q) a b).sum

/-- Embedding of `tanh` (`crypten/common/approximations.py`, lines
376-412).  The `reciprocal` branch composes the external sigmoid
(`sigmoidFn`); the `chebyshev` branch contracts the polynomials of
`_chebyshev_polynomials` with the public coefficients `coeffs` produced by
the external `crypten.common.util.chebyshev_series` and saturates through
the external `hardtanh` (`hardtanhFn`); any other method raises
`ValueError`. -/
def tanhA (sigmoidFn hardtanhFn : ℚ → ℚ) (coeffs : List ℚ)
    (cfg : ApproxConfig) (x : ℚ) : Except String ℚ :=
  if cfg.sigmoid_tanh_method = "reciprocal" then
    .ok (sigmoidFn (x * 2) * 2 - 1)
  else if cfg.sigmoid_tanh_method = "chebyshev" then
    match chebyshevPolynomials x cfg.sigmoid_tanh_terms with
    | .error e => .error e
    | .ok polys => .ok (hardtanhFn (dotLists polys coeffs))
  else
    .error "Unrecognized method for tanh"

/-- Modelled from the spec: `pos_pow` (a method of `MPCTensor`, outside
the three source files) raises the tensor to an integer power; for the
odd integer exponents used by `erf` it is the ordinary power. -/
def posPow (x : ℚ) (k : ℕ) : ℚ := x ^ k

/-- One correction term of `erf`: the source computes
`multiplier = ((-1) ** n) / (math.factorial(n) * (2 * n + 1))` and adds
`tensor.pos_pow(2 * n + 1).mul(multiplier)`. -/
def erfTerm (x : ℚ) (n : ℕ) : ℚ :=
  posPow x (2 * n + 1) * ((-1) ^ n / ((Nat.factorial n : ℚ) * (2 * n + 1)))

/-- Embedding of `erf` (`crypten/common/approximations.py`, lines
445-453): starting from a clone of the input, the loop
`for n in range(1, config.erf_iterations + 1)` accumulates the correction
terms, and the result is finally multiplied by `2.0 / math.sqrt(math.pi)`
(the public irrational factor is the parameter `twoOverSqrtPi`). -/
def erfA (twoOverSqrtPi : ℚ) (cfg : ApproxConfig) (x : ℚ) : ℚ :=
  ((List.range cfg.erf_iterations).foldl
      (fun out k => out + erfTerm x (k + 1)) x) * twoOverSqrtPi

/-- Generator draws used by the concrete two-party PRZS instance below:
the stream of `generator(0)` of each party. -/
def g0W : Fin 2 → List ℤ := fun i => if i = 0 then [5] else [7]

/-- Generator draws used by the concrete two-party PRZS instance below:
the stream of `generator(1)` of each party, seeded so that it coincides
with `generator(0)` of the next party in the ring. -/
def g1W : Fin 2 → List ℤ := fun i => if i = 0 then [7] else [5]

/-- Default configuration with `reciprocal_all_pos` enabled, as a caller
of `reciprocal` on known-positive inputs would set it. -/
def cfgNRW : ApproxConfig := { defaultConfig with reciprocal_all_pos := true }

/-- Default configuration switched to the `log` reciprocal method with
`reciprocal_all_pos` enabled. -/
def cfgLogW : ApproxConfig :=
  { defaultConfig with reciprocal_method := "log", reciprocal_all_pos := true }

/-- Default configuration switched to the `chebyshev` sigmoid/tanh
method. -/
def cfgChebW : ApproxConfig :=
  { defaultConfig with sigmoid_tanh_method := "chebyshev" }

theorem wrap64_emod (v : ℤ) : wrap64 v % 2 ^ 64 = v % 2 ^ 64 := by
  unfold wrap64; omega

theorem wrap64_congr {a b : ℤ} (h : a % 2 ^ 64 = b % 2 ^ 64) :
    wrap64 a = wrap64 b := by
  unfold wrap64; omega

theorem wrap64_eq_self {v : ℤ} (h1 : -(2 ^ 63) ≤ v) (h2 : v < 2 ^ 63) :
    wrap64 v = v := by
  unfold wrap64; omega

theorem wrap64_add_left (a b : ℤ) : wrap64 (wrap64 a + b) = wrap64 (a + b) := by
  apply wrap64_congr
  rw [Int.add_emod, wrap64_emod, ← Int.add_emod]

theorem zipWith_getD (f : ℤ → ℤ → ℤ) :
    ∀ (a b : List ℤ) (j : ℕ), j < a.length → j < b.length →
      (List.zipWith f a b).getD j 0 = f (a.getD j 0) (b.getD j 0)
  | [], _, j, ha, _ => by simp at ha
  | _ :: _, [], j, _, hb => by simp at hb
  | x :: xs, y :: ys, 0, _, _ => by simp
  | x :: xs, y :: ys, j + 1, ha, hb => by
    simp only [List.zipWith_cons_cons, List.getD_cons_succ]
    exact zipWith_getD f xs ys j (by simpa using ha) (by simpa using hb)

theorem squareIter_eq_iterate (n : ℕ) (r : ℚ) :
    squareIter n r = (fun t => t * t)^[n] r := by
  induction n generalizing r with
  | zero => rfl
  | succ n ih =>
    rw [squareIter, Function.iterate_succ_apply]
    exact ih (r * r)

theorem squareIter_pow (n : ℕ) (r : ℚ) : squareIter n r = r ^ (2 ^ n) := by
  induction n generalizing r with
  | zero => simp [squareIter]
  | succ n ih =>
    rw [squareIter, ih, ← sq, ← pow_mul, pow_succ, Nat.mul_comm]

theorem nrLoop_eq_iterate (x : ℚ) (n : ℕ) (r : ℚ) :
    nrLoop x n r = (fun t => 2 * t - t * t * x)^[n] r := by
  induction n generalizing r with
  | zero => rfl
  | succ n ih =>
    rw [nrLoop, Function.iterate_succ_apply]
    have h : r + (r - r * r * x) = 2 * r - r * r * x := by ring
    rw [h]
    exact ih _

theorem expA_congr (c1 c2 : ApproxConfig)
    (h : c1.exp_iterations = c2.exp_iterations) (x : ℚ) :
    expA c1 x = expA c2 x := by
  unfold expA; rw [h]

theorem setKeyNat_exp_iterations (c : ApproxConfig) (v : ℕ) :
    (setKeyNat c "exp_iterations" v).exp_iterations = v := rfl

theorem setKeyNat_log_iters (c : ApproxConfig) (v : ℕ) :
    setKeyNat c "log_iters" v = c := by
  simp [setKeyNat]

theorem logIter_congr (c1 c2 : ApproxConfig)
    (h : c1.exp_iterations = c2.exp_iterations) (order : ℕ) (x : ℚ)
    (n : ℕ) (y : ℚ) :
    logIter c1 order x n y = logIter c2 order x n y := by
  induction n generalizing y with
  | zero => rfl
  | succ n ih =>
    rw [logIter, logIter, expA_congr c1 c2 h]
    exact ih _

theorem logA_congr (c1 c2 : ApproxConfig)
    (h1 : c1.exp_iterations = c2.exp_iterations)
    (h2 : c1.log_iterations = c2.log_iterations)
    (h3 : c1.log_exp_iterations = c2.log_exp_iterations)
    (h4 : c1.log_order = c2.log_order) (b : Bool) (x : ℚ) :
    logA c1 b x = logA c2 b x := by
  have main : ∀ z, logMain c1 z = logMain c2 z := by
    intro z
    unfold logMain
    rw [expA_congr c1 c2 h1, h2, h3, h4]
    exact logIter_congr _ _
      (by rw [setKeyNat_exp_iterations, setKeyNat_exp_iterations]) _ _ _ _
  unfold logA
  cases b <;> simp [main]

theorem chebyshevPolynomials_error_iff (x : ℚ) (terms : ℤ) :
    (∃ e, chebyshevPolynomials x terms = .error e) ↔
      (terms % 2 ≠ 0 ∨ terms < 6) := by
  unfold chebyshevPolynomials
  by_cases hcond : terms % 2 ≠ 0 ∨ terms < 6
  · rw [if_pos hcond]
    simpa using hcond
  · rw [if_neg hcond]
    simpa using hcond

theorem reciprocal_log_run (signFn : ℚ → ℚ) (cfg : ApproxConfig) (x : ℚ)
    (hm : cfg.reciprocal_method = "log") (hp : cfg.reciprocal_all_pos = true) :
    reciprocalA signFn cfg false x = .ok (expA cfg (-(logA cfg false x))) := by
  simp [reciprocalA, reciprocalMain, reciprocalPos, hp, hm, setKeyNat_log_iters]

theorem erf_foldl_sum (x : ℚ) (N : ℕ) :
    (List.range N).foldl (fun out k => out + erfTerm x (k + 1)) x
      = ∑ n in Finset.range (N + 1), erfTerm x n := by
  induction N with
  | zero => simp [erfTerm, posPow]
  | succ n ih =>
    rw [List.range_succ, List.foldl_append, Finset.sum_range_succ, ← ih]
    simp

theorem revealSum_getD (L j : ℕ) (hj : j < L) :
    ∀ (s t : List ℤ) (rest : List (List ℤ)), s.length = L → t.length = L →
      (∀ u ∈ rest, u.length = L) →
      (revealSum (s :: t :: rest)).getD j 0
        = wrap64 (((s :: t :: rest).map (fun u => u.getD j 0)).sum)
  | s, t, [], hs, ht, _ => by
    show (List.zipWith addShares s t).getD j 0 = _
    rw [zipWith_getD _ s t j (hs ▸ hj) (ht ▸ hj)]
    simp [addShares]
  | s, t, u :: rest', hs, ht, hrest => by
    have hst : (List.zipWith addShares s t).length = L := by
      rw [List.length_zipWith, hs, ht]; omega
    have step : revealSum (s :: t :: u :: rest')
        = revealSum (List.zipWith addShares s t :: u :: rest') := rfl
    rw [step,
      revealSum_getD L j hj (List.zipWith addShares s t) u rest' hst
        (hrest u (by simp)) (fun v hv => hrest v (by simp [hv]))]
    simp only [List.map_cons, List.sum_cons]
    rw [zipWith_getD _ s t j (hs ▸ hj) (ht ▸ hj),
      show addShares (s.getD j 0) (t.getD j 0)
          = wrap64 (s.getD j 0 + t.getD j 0) from rfl,
      wrap64_add_left]
    apply wrap64_congr
    ring_nf

/-- C1: when the ring of generators is seeded so that the `generator(1)`
stream of party `i` produces the same draws as the `generator(0)` stream
of party `i + 1`, and all `n` parties call `PRZS` with the same size, the
elementwise sum of the `n` returned shares is `0` modulo `2^64`. -/
theorem przs_sum_zero (n : ℕ) [NeZero n] (L : ℕ) (g0 g1 : Fin n → List ℤ)
    (hlen : ∀ i, (g0 i).length = L)
    (hpair : ∀ i, g1 i = g0 (i + 1))
    (j : ℕ) (hj : j < L) :
    (∑ i : Fin n, (PRZS (g0 i) (g1 i)).getD j 0) % 2 ^ 64 = 0 := by
  have key : ∀ i : Fin n, (PRZS (g0 i) (g1 i)).getD j 0
      = wrap64 ((g0 i).getD j 0 - (g0 (i + 1)).getD j 0) := by
    intro i
    rw [hpair i]
    exact zipWith_getD _ _ _ j (by rw [hlen]; exact hj) (by rw [hlen]; exact hj)
  calc (∑ i : Fin n, (PRZS (g0 i) (g1 i)).getD j 0) % 2 ^ 64
      = (∑ i : Fin n,
          wrap64 ((g0 i).getD j 0 - (g0 (i + 1)).getD j 0)) % 2 ^ 64 := by
        rw [Finset.sum_congr rfl fun i _ => key i]
    _ = (∑ i : Fin n,
          ((g0 i).getD j 0 - (g0 (i + 1)).getD j 0)) % 2 ^ 64 := by
        rw [Finset.sum_int_mod, Finset.sum_congr rfl fun i _ => wrap64_emod _,
          ← Finset.sum_int_mod]
    _ = 0 := by
        have h := Equiv.sum_comp (Equiv.addRight (1 : Fin n))
          (fun i => (g0 i).getD j 0)
        simp only [Equiv.coe_addRight] at h
        rw [Finset.sum_sub_distrib, h, sub_self]
        simp

/-- Witness for C1: two parties, one-element tensors, generators seeded so
that adjacent parties share a stream; the hypotheses hold and the shares
sum to zero. -/
theorem przs_sum_zero_witness :
    ((∀ i : Fin 2, (g0W i).length = 1) ∧ (∀ i : Fin 2, g1W i = g0W (i + 1)) ∧
      (0 : ℕ) < 1) ∧
    (∑ i : Fin 2, (PRZS (g0W i) (g1W i)).getD 0 0) % 2 ^ 64 = 0 :=
  ⟨⟨by decide, by decide, by decide⟩,
    przs_sum_zero 2 1 g0W g1W (by decide) (by decide) 0 (by decide)⟩

/-- Counterexample for C2: the claim says every value of
`[-2^63, 2^63 - 1]`, including the upper endpoint `2^63 - 1`, is a
possible draw of `generate_random_ring_element`; but `torch.randint`
excludes its upper bound `(ring_size - 1) // 2 = 2^63 - 1`, so that value
is not in the support. -/
theorem uniform_ring_excludes_top : ¬ inRingElementRange (2 ^ 63 - 1) := by
  decide

/-- C2 (amended): the support of `generate_random_ring_element` is exactly
the interval `[-2^63, 2^63 - 2]`; the upper endpoint `2^63 - 1` of the
full signed 64-bit range is never drawn. -/
theorem ring_element_range_iff (v : ℤ) :
    inRingElementRange v ↔ -(2 ^ 63) ≤ v ∧ v ≤ 2 ^ 63 - 2 := by
  unfold inRingElementRange randint_low randint_high ring_size
  norm_num
  omega

/-- C3: for a public integer divisor `y`, `div_` truncates each share
toward zero when the world size is at most two; with more than two
parties it additionally subtracts `wraps * 4 * (2^62 // y)` (computed from
the pre-truncation wrap count) from the shared result, all modulo `2^64`.
When the world size is at most two, the divisor is positive and the share
is a genuine int64 value, the new share is exactly the truncated
quotient. -/
theorem div_public_int_spec (n : ℕ) (w s y : ℤ) (hy : y ≠ 0) :
    div_public_int n w s y =
      (if 2 < n then wrap64 (Int.tdiv s y - w * 4 * Int.fdiv (2 ^ 62) y)
       else wrap64 (Int.tdiv s y)) ∧
    (n ≤ 2 → 0 < y → -(2 ^ 63) ≤ s → s < 2 ^ 63 →
      div_public_int n w s y = Int.tdiv s y) := by
  constructor
  · unfold div_public_int subShares truncDivShare mulSharePublic
    by_cases hn : 2 < n
    · rw [if_pos hn, if_pos hn]
      apply wrap64_congr
      rw [Int.sub_emod, wrap64_emod, wrap64_emod, Int.mul_emod, wrap64_emod,
        ← Int.mul_emod, ← Int.sub_emod]
    · rw [if_neg hn, if_neg hn]
  · intro hn hy' h1 h2
    unfold div_public_int truncDivShare
    rw [if_neg (by omega)]
    have hb : -(2 ^ 63) ≤ Int.tdiv s y ∧ Int.tdiv s y < 2 ^ 63 := by
      rcases le_or_lt 0 s with hs | hs
      · rw [Int.tdiv_eq_ediv hs hy'.le]
        have ha := Int.ediv_nonneg hs hy'.le
        have hbb := Int.ediv_le_self y hs
        omega
      · have hneg : s.tdiv y = -((-s).tdiv y) := by rw [← Int.neg_tdiv, neg_neg]
        have hs' : (0 : ℤ) ≤ -s := by omega
        rw [hneg, Int.tdiv_eq_ediv hs' hy'.le]
        have ha := Int.ediv_nonneg hs' hy'.le
        have hbb := Int.ediv_le_self y hs'
        omega
    exact wrap64_eq_self hb.1 hb.2

/-- Witness for C3: a three-party division of the share `100` by `7` with
wrap-count share `2`; the divisor is nonzero and the correction formula is
realized. -/
theorem div_public_int_spec_witness :
    (7 : ℤ) ≠ 0 ∧
    div_public_int 3 2 100 7
      = wrap64 (Int.tdiv 100 7 - 2 * 4 * Int.fdiv (2 ^ 62) 7) :=
  ⟨by decide,
    ((div_public_int_spec 3 2 100 7 (by decide)).1).trans (if_pos (by decide))⟩

/-- C4: public `add` and `sub` encode the operand and apply it to the
share of rank 0 only; every rank greater than 0 merely broadcasts its
share to the result shape, with no element value changed. -/
theorem public_add_sub_locality (isSub : Bool) (rank scale : ℕ)
    (share : List ℤ) (y : List ℚ)
    (hcompat : share.length = 1 ∨ y.length ≤ share.length) :
    (0 < rank →
      arithmeticFunctionPublicAdditive isSub rank scale share y
          = broadcastTo share (max share.length y.length) ∧
      ∀ v ∈ arithmeticFunctionPublicAdditive isSub rank scale share y,
        v ∈ share) ∧
    arithmeticFunctionPublicAdditive isSub 0 scale share y
        = List.zipWith (fun a b => wrap64 (if isSub then a - b else a + b))
            (broadcastTo share (max share.length y.length))
            (broadcastTo (y.map (encode scale))
              (max share.length y.length)) := by
  constructor
  · intro hr
    have hrank : rank ≠ 0 := hr.ne'
    have heq : arithmeticFunctionPublicAdditive isSub rank scale share y
        = broadcastTo share (max share.length y.length) := by
      unfold arithmeticFunctionPublicAdditive
      simp only [List.length_map, if_neg hrank]
    refine ⟨heq, ?_⟩
    rw [heq]
    unfold broadcastTo
    by_cases hL : share.length = max share.length y.length
    · rw [if_pos hL]
      exact fun v hv => hv
    · rw [if_neg hL]
      intro v hv
      have hone : share.length = 1 := by
        rcases hcompat with h | h
        · exact h
        · exact absurd (max_eq_left h).symm hL
      obtain ⟨a, rfl⟩ := List.length_eq_one.mp hone
      rw [List.eq_of_mem_replicate hv]
      simp
  · unfold arithmeticFunctionPublicAdditive
    simp [List.length_map]

/-- Witness for C4: rank 1 with a two-element share and a same-shape
public operand; the resulting share is the unchanged broadcast. -/
theorem public_add_sub_locality_witness :
    (([3, 4] : List ℤ).length = 1 ∨
      ([1 / 2, 7] : List ℚ).length ≤ ([3, 4] : List ℤ).length) ∧
    arithmeticFunctionPublicAdditive false 1 65536 [3, 4] [1 / 2, 7]
      = broadcastTo [3, 4]
          (max ([3, 4] : List ℤ).length ([1 / 2, 7] : List ℚ).length) :=
  ⟨by decide,
    ((public_add_sub_locality false 1 65536 [3, 4] [1 / 2, 7]
      (by decide)).1 (by decide)).1⟩

/-- C5: `exp` computes `r = 1 + x / 2^d` and squares it exactly
`d = exp_iterations` times, so that over the shared-tensor algebra
`exp(x) = (1 + x / 2^d) ^ (2^d)`; the default number of iterations
is 8. -/
theorem exp_limit_form (cfg : ApproxConfig) (x : ℚ) :
    expA cfg x
        = (fun r => r * r)^[cfg.exp_iterations]
            (1 + x / 2 ^ cfg.exp_iterations) ∧
    expA cfg x = (1 + x / 2 ^ cfg.exp_iterations) ^ 2 ^ cfg.exp_iterations ∧
    defaultConfig.exp_iterations = 8 :=
  ⟨squareIter_eq_iterate _ _, squareIter_pow _ _, rfl⟩

/-- C6: with method `NR`, `reciprocal_all_pos` set and no caller-supplied
initial value, `reciprocal` starts from `3 * exp(1 - 2x) + 0.003` and
applies exactly `reciprocal_nr_iters` iterations of `r := 2r - r^2 * x`;
the default iteration count is 10. -/
theorem reciprocal_nr_spec (signFn : ℚ → ℚ) (cfg : ApproxConfig) (x : ℚ)
    (hm : cfg.reciprocal_method = "NR") (hp : cfg.reciprocal_all_pos = true)
    (hi : cfg.reciprocal_initial = none) :
    reciprocalA signFn cfg false x
        = .ok ((fun r => 2 * r - r * r * x)^[cfg.reciprocal_nr_iters]
            (3 * expA cfg (1 - 2 * x) + 3 / 1000)) ∧
    defaultConfig.reciprocal_nr_iters = 10 := by
  refine ⟨?_, rfl⟩
  simp [reciprocalA, reciprocalMain, reciprocalPos, hp, hm, hi,
    nrLoop_eq_iterate]

/-- Witness for C6: the default configuration with `reciprocal_all_pos`
enabled satisfies the hypotheses and the Newton-Raphson shape holds at the
input 1. -/
theorem reciprocal_nr_spec_witness :
    (cfgNRW.reciprocal_method = "NR" ∧ cfgNRW.reciprocal_all_pos = true ∧
      cfgNRW.reciprocal_initial = none) ∧
    reciprocalA id cfgNRW false 1
      = .ok ((fun r => 2 * r - r * r * 1)^[cfgNRW.reciprocal_nr_iters]
          (3 * expA cfgNRW (1 - 2 * 1) + 3 / 1000)) :=
  ⟨⟨rfl, rfl, rfl⟩, (reciprocal_nr_spec id cfgNRW 1 rfl rfl rfl).1⟩

/-- C7: with method `log` and `reciprocal_all_pos` set, `reciprocal`
returns `exp(-log(x))`, and the value of `reciprocal_log_iters` has no
effect on the result: the scoped override writes the key `log_iters`,
which is not a declared configuration field, while `log` reads
`log_iterations`. -/
theorem reciprocal_log_spec (signFn : ℚ → ℚ) (cfg : ApproxConfig) (x : ℚ)
    (hm : cfg.reciprocal_method = "log")
    (hp : cfg.reciprocal_all_pos = true) :
    reciprocalA signFn cfg false x = .ok (expA cfg (-(logA cfg false x))) ∧
    ∀ v1 v2 : ℕ,
      reciprocalA signFn { cfg with reciprocal_log_iters := v1 } false x
        = reciprocalA signFn { cfg with reciprocal_log_iters := v2 } false x := by
  refine ⟨reciprocal_log_run signFn cfg x hm hp, ?_⟩
  intro v1 v2
  rw [reciprocal_log_run signFn { cfg with reciprocal_log_iters := v1 } x hm hp,
    reciprocal_log_run signFn { cfg with reciprocal_log_iters := v2 } x hm hp]
  have hl : logA { cfg with reciprocal_log_iters := v1 } false x
      = logA { cfg with reciprocal_log_iters := v2 } false x :=
    logA_congr { cfg with reciprocal_log_iters := v1 }
      { cfg with reciprocal_log_iters := v2 } rfl rfl rfl rfl false x
  have he : ∀ z, expA { cfg with reciprocal_log_iters := v1 } z
      = expA { cfg with reciprocal_log_iters := v2 } z :=
    fun z => expA_congr { cfg with reciprocal_log_iters := v1 }
      { cfg with reciprocal_log_iters := v2 } rfl z
  rw [hl, he]

/-- Witness for C7: the default configuration switched to the `log`
method with `reciprocal_all_pos` enabled satisfies the hypotheses, and
the composed form holds at the input 2. -/
theorem reciprocal_log_spec_witness :
    (cfgLogW.reciprocal_method = "log" ∧ cfgLogW.reciprocal_all_pos = true) ∧
    reciprocalA id cfgLogW false 2
      = .ok (expA cfgLogW (-(logA cfgLogW false 2))) :=
  ⟨⟨rfl, rfl⟩, (reciprocal_log_spec id cfgLogW 2 rfl rfl).1⟩

/-- C8: with the `chebyshev` method, `tanh` raises the configuration
`ValueError` exactly when `sigmoid_tanh_terms` is odd or below 6; for
every even value of at least 6 the Chebyshev evaluation proceeds without
that error. -/
theorem tanh_chebyshev_error_iff (sigmoidFn hardtanhFn : ℚ → ℚ)
    (coeffs : List ℚ) (cfg : ApproxConfig) (x : ℚ)
    (hm : cfg.sigmoid_tanh_method = "chebyshev") :
    (∃ e, tanhA sigmoidFn hardtanhFn coeffs cfg x = .error e) ↔
      (cfg.sigmoid_tanh_terms % 2 ≠ 0 ∨ cfg.sigmoid_tanh_terms < 6) := by
  rw [← chebyshevPolynomials_error_iff x cfg.sigmoid_tanh_terms]
  unfold tanhA
  rw [hm, if_neg (by decide : ¬("chebyshev" = "reciprocal")), if_pos rfl]
  rcases hres : chebyshevPolynomials x cfg.sigmoid_tanh_terms with e | polys <;>
    simp [hres]

/-- Witness for C8: the default configuration switched to `chebyshev`
(32 terms) satisfies the hypothesis, and the error characterization holds
there. -/
theorem tanh_chebyshev_error_iff_witness :
    cfgChebW.sigmoid_tanh_method = "chebyshev" ∧
    ((∃ e, tanhA id id [] cfgChebW 0 = .error e) ↔
      (cfgChebW.sigmoid_tanh_terms % 2 ≠ 0 ∨ cfgChebW.sigmoid_tanh_terms < 6)) :=
  ⟨rfl, tanh_chebyshev_error_iff id id [] cfgChebW 0 rfl⟩

/-- C9: `erf` returns the public factor `2 / sqrt(pi)` times the Taylor
partial sum of `erf_iterations + 1` terms, each term being
`(-1)^n * x^(2n+1) / (n! * (2n+1))`; the default number of correction
terms is 8. -/
theorem erf_taylor_spec (twoOverSqrtPi : ℚ) (cfg : ApproxConfig) (x : ℚ) :
    erfA twoOverSqrtPi cfg x
        = twoOverSqrtPi * ∑ n in Finset.range (cfg.erf_iterations + 1),
            ((-1 : ℚ) ^ n * x ^ (2 * n + 1))
              / ((Nat.factorial n : ℚ) * (2 * n + 1)) ∧
    defaultConfig.erf_iterations = 8 := by
  refine ⟨?_, rfl⟩
  unfold erfA
  rw [erf_foldl_sum]
  have hterm : ∀ k : ℕ, erfTerm x k
      = ((-1 : ℚ) ^ k * x ^ (2 * k + 1))
          / ((Nat.factorial k : ℚ) * (2 * k + 1)) := by
    intro k
    unfold erfTerm posPow
    ring
  rw [Finset.sum_congr rfl fun k _ => hterm k, mul_comm]

/-- C10: `get_plain_text` on a zero-element share returns an empty
plaintext tensor of the same (zero-element) size without performing the
reveal collective and without invoking the decoder, while on a share with
at least one element it returns the decoded all-reduce of the shares of
all parties (the elementwise wrapped sum). -/
theorem get_plain_text_spec (shares : List (List ℤ)) (scale L : ℕ)
    (hne : shares ≠ []) (hlen : ∀ s ∈ shares, s.length = L) :
    (L = 0 → getPlainText shares scale = ⟨[], false, false⟩) ∧
    (0 < L →
      getPlainText shares scale
          = ⟨(revealSum shares).map (decode scale), true, true⟩ ∧
      (2 ≤ shares.length → ∀ j < L,
        (revealSum shares).getD j 0
          = wrap64 ((shares.map (fun s => s.getD j 0)).sum))) := by
  have hhead : (shares.headD []).length = L := by
    cases shares with
    | nil => exact absurd rfl hne
    | cons s rest => exact hlen s (by simp)
  refine ⟨?_, ?_⟩
  · intro h0
    unfold getPlainText
    rw [hhead, h0]
    simp
  · intro hL
    refine ⟨?_, ?_⟩
    · unfold getPlainText
      rw [hhead]
      simp [Nat.lt_irrefl, hL, Nat.not_lt.mpr hL]
    · intro htwo j hj
      match shares, htwo with
      | s :: t :: rest, _ =>
        exact revealSum_getD L j hj s t rest (hlen s (by simp))
          (hlen t (by simp)) (fun u hu => hlen u (by simp [hu]))

/-- Witness for C10: both branches realized on concrete share lists; the
zero-element case returns the empty result without revealing or decoding,
and the one-element case returns the decoded all-reduce. -/
theorem get_plain_text_spec_witness :
    ((([[], []] : List (List ℤ)) ≠ [] ∧
        ∀ s ∈ ([[], []] : List (List ℤ)), s.length = 0) ∧
      getPlainText [[], []] 65536 = ⟨[], false, false⟩) ∧
    ((([[1], [2]] : List (List ℤ)) ≠ [] ∧
        ∀ s ∈ ([[1], [2]] : List (List ℤ)), s.length = 1) ∧
      getPlainText [[1], [2]] 65536
        = ⟨(revealSum [[1], [2]]).map (decode 65536), true, true⟩) :=
  ⟨⟨⟨by decide, by decide⟩,
      (get_plain_text_spec [[], []] 65536 0 (by decide) (by decide)).1 rfl⟩,
    ⟨⟨by decide, by decide⟩,
      ((get_plain_text_spec [[1], [2]] 65536 1 (by decide) (by decide)).2
        (by decide)).1⟩⟩

end Crypten
